import Mathlib

/-!
# Verification of the OLAF overlay-merge installer (`src/tools/install_olaf.py`)

This file gives a shallow embedding of the installer's core logic and proves
the specification claims about it.

## Embedding of the filesystem

Directory trees are modelled as association lists from file paths (lists of
name segments, relative to a root directory) to file contents (strings).
`fsLookup` returns the content of the first entry for a path, so prepending
an entry overwrites: this models "copy a file, overwriting any existing file
at that path" (`shutil.copy2` / `shutil.copytree(dirs_exist_ok=True)`).
Empty directories and file-versus-directory type collisions are outside the
model, which only tracks file paths and their contents.

Python's `json` module is an external collaborator; JSON documents are
embedded as the inductive `JValue`, and `json.loads` is a parameter
`parse : String → Option JValue` of the functions that call it (`none`
models a `json.JSONDecodeError`).  `x.get(k)` on a parsed document, which
raises `AttributeError` when `x` is not a `dict`, is embedded by `dataGet`,
whose `none` result models that exception escaping.
-/

/-- A file path: the list of name segments below the relevant root. -/
abbrev FPath := List String

/-- A directory tree: an association list from file paths to file contents.
The first entry for a path gives its content (`fsLookup`). -/
abbrev FS := List (FPath × String)

/-- Content of the file at `p`, if any (first entry wins). -/
def fsLookup : FS → FPath → Option String
  | [], _ => none
  | e :: rest, p => if e.1 = p then some e.2 else fsLookup rest p

/-- `isUnder pre p`: `p` is `pre` itself or lies below the directory `pre`. -/
def isUnder : FPath → FPath → Bool
  | [], _ => true
  | _ :: _, [] => false
  | a :: as, b :: bs => a == b && isUnder as bs

/-- The path `pre` names an existing directory: some strictly longer path
below it is present (`FPath.is_dir()` on a non-empty directory). -/
def fsDirExists (fs : FS) (pre : FPath) : Bool :=
  fs.any (fun e => isUnder pre e.1 && decide (pre.length < e.1.length))

/-- The path `pre` exists, as a file or as a directory (`FPath.exists()`). -/
def fsPathExists (fs : FS) (pre : FPath) : Bool :=
  fs.any (fun e => isUnder pre e.1)

/-- Delete everything at or below `pre` (`shutil.rmtree`). -/
def eraseUnder (fs : FS) (pre : FPath) : FS :=
  fs.filter (fun e => !(isUnder pre e.1))

/-- The subtree rooted at `pre`, with paths made relative to `pre`. -/
def subtreeAt (fs : FS) (pre : FPath) : FS :=
  fs.filterMap (fun e =>
    if isUnder pre e.1 then some (e.1.drop pre.length, e.2) else none)

/-- Re-root a tree below the directory `pre`. -/
def prefixAll (pre : FPath) (fs : FS) : FS :=
  fs.map (fun e => (pre ++ e.1, e.2))

/-- Replace the subtree at `pre` by `sub`: delete the old subtree, then copy
`sub` in (`rmtree_if_exists` followed by `shutil.copytree` to a fresh path). -/
def graft (fs : FS) (pre : FPath) (sub : FS) : FS :=
  prefixAll pre sub ++ eraseUnder fs pre

/-- A path participates in the merge iff its top-level name is not in the
excluded set (`if child.name in exclude_names: continue`). -/
def topLevelAllowed (exclude : List String) : FPath → Bool
  | [] => false
  | n :: _ => !(exclude.contains n)

/-- `merge_dir_excluding_top_level(src, dst, exclude_names)` from
`install_olaf.py`: for every top-level child of `src` whose name is not
excluded, merge it into `dst`, overwriting colliding files file-by-file
(`shutil.copytree(..., dirs_exist_ok=True)` for directories, `shutil.copy2`
for files) and never deleting anything already in `dst`. -/
def merge_dir_excluding_top_level (src : FS) (exclude : List String) (dst : FS) : FS :=
  src.filter (fun e => topLevelAllowed exclude e.1) ++ dst

theorem fsLookup_append (a b : FS) (p : FPath) :
    fsLookup (a ++ b) p = (fsLookup a p).or (fsLookup b p) := by
  induction a with
  | nil => simp [fsLookup]
  | cons e rest ih =>
    by_cases h : e.1 = p
    · simp [fsLookup, h]
    · simp [fsLookup, h, ih]

theorem fsLookup_filter_key (q : FPath → Bool) (fs : FS) (p : FPath) :
    fsLookup (fs.filter (fun e => q e.1)) p =
      if q p then fsLookup fs p else none := by
  induction fs with
  | nil => simp [fsLookup]
  | cons e rest ih =>
    by_cases hq : q e.1
    · by_cases h : e.1 = p
      · subst h; simp [fsLookup, hq]
      · simp [List.filter_cons, hq, fsLookup, h, ih]
    · by_cases h : e.1 = p
      · subst h
        simp [List.filter_cons, hq, ih]
      · simp [List.filter_cons, hq, fsLookup, h, ih]

/-- What the overlay merge does to the content at each path: excluded or
empty paths are untouched, and otherwise the source wins where present. -/
theorem fsLookup_merge (src dst : FS) (exclude : List String) (p : FPath) :
    fsLookup (merge_dir_excluding_top_level src exclude dst) p =
      match p with
      | [] => fsLookup dst p
      | n :: _ =>
        if n ∈ exclude then fsLookup dst p
        else (fsLookup src p).or (fsLookup dst p) := by
  unfold merge_dir_excluding_top_level
  rw [fsLookup_append, fsLookup_filter_key (topLevelAllowed exclude)]
  match p with
  | [] => simp [topLevelAllowed]
  | n :: rest =>
    by_cases h : n ∈ exclude
    · simp [topLevelAllowed, h]
    · simp [topLevelAllowed, h]

/-- C1: merging a snapshot subtree `src` into an installation root `dst`
(excluding top-level names in `exclude`) gives `src`'s content at every
path of `src` whose top-level name is not excluded (last-applied wins),
leaves every path absent from `src` with its prior content, and never
deletes any path present in `dst`. -/
theorem merge_overlay_semantics (src dst : FS) (exclude : List String)
    (p : FPath) (n : String) (rest : FPath)
    (hp : p = n :: rest) (hn : n ∉ exclude) :
    (∀ c, fsLookup src p = some c →
      fsLookup (merge_dir_excluding_top_level src exclude dst) p = some c)
    ∧ (fsLookup src p = none →
      fsLookup (merge_dir_excluding_top_level src exclude dst) p = fsLookup dst p)
    ∧ (∀ q c, fsLookup dst q = some c →
      (fsLookup (merge_dir_excluding_top_level src exclude dst) q).isSome = true) := by
  subst hp
  refine ⟨?_, ?_, ?_⟩
  · intro c hc
    rw [fsLookup_merge]
    simp [hn, hc]
  · intro hc
    rw [fsLookup_merge]
    simp [hn, hc]
  · intro q c hq
    rw [fsLookup_merge]
    match q with
    | [] => simp [hq]
    | m :: qrest =>
      by_cases hm : m ∈ exclude
      · simp [hm, hq]
      · simp only [hm, if_false]
        cases hsrc : fsLookup src (m :: qrest) with
        | none => simp [hsrc, hq]
        | some c2 => simp [hsrc]

/-- Witness for C1 at a concrete merge: the snapshot overwrites
`["skills", "a.md"]`, the root-only file `["reference", "r.md"]` survives,
and the excluded subtree `["docs", "d.md"]` is not copied. -/
theorem merge_overlay_semantics_witness :
    fsLookup (merge_dir_excluding_top_level
        [(["skills", "a.md"], "new"), (["docs", "d.md"], "doc")]
        ["docs", "tools"]
        [(["skills", "a.md"], "old"), (["reference", "r.md"], "keep")])
      ["skills", "a.md"] = some "new" :=
  (merge_overlay_semantics
    [(["skills", "a.md"], "new"), (["docs", "d.md"], "doc")]
    [(["skills", "a.md"], "old"), (["reference", "r.md"], "keep")]
    ["docs", "tools"] ["skills", "a.md"] "skills" ["a.md"] rfl (by decide)).1
    "new" (by decide)

/-! ## The multi-source install pipeline (`main`, lines 1447-1461)

The installer excludes the top-level names `docs` and `tools` from every
merge (`merge_install_from_clone`), applies the declared secondary
snapshots in reverse declared order (`secondary_to_apply =
list(reversed(secondary))`, "bottom-to-top (last entry first)"), skipping a
secondary whose snapshot has no package subtree, and finally merges the
primary (seed) snapshot on top. -/

/-- The top-level names excluded from every install merge
(`exclude_names={"docs", "tools"}` in `merge_install_from_clone`). -/
def installExcludeNames : List String := ["docs", "tools"]

/-- `merge_install_from_clone`: merge a clone's `.olaf` subtree into the
target.  `none` for the subtree means the clone has no `.olaf` folder, in
which case the function raises (`RuntimeError`), modelled as result `none`. -/
def merge_install_from_clone (cloneOlaf : Option FS) (target : FS) : Option FS :=
  match cloneOlaf with
  | none => none
  | some src => some (merge_dir_excluding_top_level src installExcludeNames target)

/-- The secondary-application loop in `main`: iterate over
`reversed(secondary)` and merge each secondary snapshot, skipping (with a
warning) any secondary whose merge raises. -/
def apply_secondaries (secs : List (Option FS)) (target : FS) : FS :=
  secs.reverse.foldl
    (fun acc sec =>
      match merge_install_from_clone sec acc with
      | some r => r
      | none => acc)
    target

/-- The global-install merge sequence of `main`: all secondaries in reverse
declared order, then the primary (seed) snapshot last. -/
def global_install (primary : FS) (secs : List (Option FS)) (target : FS) : FS :=
  merge_dir_excluding_top_level primary installExcludeNames (apply_secondaries secs target)

/-- Content a path would receive from the declared secondary list alone,
scanning the list in declared order and taking the first snapshot that
contains the path (secondaries missing their package subtree contribute
nothing). -/
def secListLookup : List (Option FS) → FPath → Option String
  | [], _ => none
  | none :: rest, p => secListLookup rest p
  | some s :: rest, p => (fsLookup s p).or (secListLookup rest p)

theorem apply_secondaries_nil (target : FS) : apply_secondaries [] target = target := rfl

/-- Unfolding `apply_secondaries` one declared entry at a time: because the
loop runs over the reversed list, the first-declared entry is merged last. -/
theorem apply_secondaries_cons (s : Option FS) (rest : List (Option FS)) (target : FS) :
    apply_secondaries (s :: rest) target =
      match merge_install_from_clone s (apply_secondaries rest target) with
      | some r => r
      | none => apply_secondaries rest target := by
  unfold apply_secondaries
  rw [List.reverse_cons, List.foldl_append]
  rfl

theorem fsLookup_apply_secondaries (secs : List (Option FS)) (target : FS)
    (n : String) (rest : FPath) (hn : n ∉ installExcludeNames) :
    fsLookup (apply_secondaries secs target) (n :: rest) =
      (secListLookup secs (n :: rest)).or (fsLookup target (n :: rest)) := by
  induction secs with
  | nil => simp [apply_secondaries_nil, secListLookup]
  | cons s ss ih =>
    rw [apply_secondaries_cons]
    cases s with
    | none => simpa [merge_install_from_clone, secListLookup] using ih
    | some sfs =>
      simp only [merge_install_from_clone]
      rw [fsLookup_merge]
      simp only [hn, if_false, secListLookup, ih, Option.or_assoc]

/-- C2 counterexample: secondaries declared in order `[A, B]` share the path
`["skills", "s.md"]` and the primary does not have it.  The loop applies `B`
first and `A` last, so the EARLIER-declared `A` wins the conflict — not the
later-declared `B` as the claim states. -/
theorem install_secondary_order_counterexample :
    fsLookup (global_install []
        [some [(["skills", "s.md"], "from-A")], some [(["skills", "s.md"], "from-B")]]
        [])
      ["skills", "s.md"] = some "from-A"
    ∧ fsLookup (global_install []
        [some [(["skills", "s.md"], "from-A")], some [(["skills", "s.md"], "from-B")]]
        [])
      ["skills", "s.md"] ≠ some "from-B" := by
  constructor
  · rfl
  · decide

/-- C2 (amended): the installer applies the declared secondaries in reverse
declared order and the primary last; consequently, at any non-excluded path,
the primary's content wins every conflict with a secondary, and among
secondaries the EARLIER-declared snapshot (merged later) wins over a
later-declared one: the final content is the primary's if present, else the
first declared secondary's that has the path, else the prior target content. -/
theorem install_precedence_amended (primary : FS) (secs : List (Option FS)) (target : FS)
    (n : String) (rest : FPath) (hn : n ∉ installExcludeNames) :
    fsLookup (global_install primary secs target) (n :: rest) =
      (fsLookup primary (n :: rest)).or
        ((secListLookup secs (n :: rest)).or (fsLookup target (n :: rest)))
    ∧ (∀ s ss t, apply_secondaries (s :: ss) t =
        match merge_install_from_clone s (apply_secondaries ss t) with
        | some r => r
        | none => apply_secondaries ss t) := by
  constructor
  · unfold global_install
    rw [fsLookup_merge]
    simp only [hn, if_false]
    rw [fsLookup_apply_secondaries secs target n rest hn]
  · intro s ss t
    exact apply_secondaries_cons s ss t

/-- Witness for C2 (amended): with one secondary and a primary that share
`["skills", "s.md"]`, the primary's content wins. -/
theorem install_precedence_amended_witness :
    fsLookup (global_install [(["skills", "s.md"], "primary")]
        [some [(["skills", "s.md"], "secondary")]] [])
      ["skills", "s.md"] = some "primary" := by
  have h := install_precedence_amended [(["skills", "s.md"], "primary")]
    [some [(["skills", "s.md"], "secondary")]] [] "skills" ["s.md"] (by decide)
  rw [h.1]
  rfl

/-! ## JSON documents and string helpers

`JValue` embeds parsed JSON values.  Python string helpers used by the
installer (`str.strip`, `str.split`, pathlib `/`) are embedded as
character-list functions so that they evaluate inside the kernel. -/

/-- A parsed JSON value (the result of `json.loads`). -/
inductive JValue where
  | null : JValue
  | bool (b : Bool) : JValue
  | num (n : Int) : JValue
  | str (s : String) : JValue
  | arr (items : List JValue) : JValue
  | obj (entries : List (String × JValue)) : JValue

/-- The key-value entries of a JSON object. -/
abbrev JEntries := List (String × JValue)

/-- `d[k]` lookup in a JSON object (`dict.get(k)`, first entry wins). -/
def lookupKV : JEntries → String → Option JValue
  | [], _ => none
  | e :: rest, k => if e.1 = k then some e.2 else lookupKV rest k

/-- `d[k] = v` on a JSON object: replace the value at an existing key in
place, otherwise append the new key (CPython dict insertion order). -/
def setKV : JEntries → String → JValue → JEntries
  | [], k, v => [(k, v)]
  | e :: rest, k, v => if e.1 = k then (k, v) :: rest else e :: setKV rest k v

/-- `x.get(k)` on an arbitrary parsed value: raises `AttributeError` (outer
`none`) unless `x` is an object. -/
def dataGet : JValue → String → Option (Option JValue)
  | JValue.obj kvs, k => some (lookupKV kvs k)
  | _, _ => none

/-- Characters removed by Python's `str.strip()` (ASCII whitespace). -/
def isPySpace (c : Char) : Bool :=
  c == ' ' || c == '\t' || c == '\n' || c == '\r' || c == '\x0b' || c == '\x0c'

/-- Python `s.strip()`. -/
def pyStrip (s : String) : String :=
  String.mk (((s.data.dropWhile isPySpace).reverse.dropWhile isPySpace).reverse)

/-- Python `s.split(c, 1)` when `c` occurs in `s`: the text before the first
occurrence and everything after it; `none` when `c` does not occur. -/
def splitFirst (c : Char) : List Char → Option (List Char × List Char)
  | [] => none
  | a :: rest =>
    if a == c then some ([], rest)
    else
      match splitFirst c rest with
      | none => none
      | some (x, y) => some (a :: x, y)

/-- Python `s.split(c)` (all occurrences). -/
def splitOnChar (c : Char) : List Char → List (List Char)
  | [] => [[]]
  | a :: rest =>
    let r := splitOnChar c rest
    if a == c then [] :: r
    else
      match r with
      | [] => [[a]]
      | g :: gs => (a :: g) :: gs

theorem lookupKV_setKV_self (kvs : JEntries) (k : String) (v : JValue) :
    lookupKV (setKV kvs k v) k = some v := by
  induction kvs with
  | nil => simp [setKV, lookupKV]
  | cons e rest ih =>
    by_cases h : e.1 = k
    · simp [setKV, h, lookupKV]
    · simp [setKV, h, lookupKV, ih]

theorem lookupKV_setKV_other (kvs : JEntries) (k k2 : String) (v : JValue)
    (h : k2 ≠ k) : lookupKV (setKV kvs k v) k2 = lookupKV kvs k2 := by
  induction kvs with
  | nil => simp [setKV, lookupKV, Ne.symm h]
  | cons e rest ih =>
    by_cases he : e.1 = k
    · subst he
      simp [setKV, lookupKV, Ne.symm h]
    · by_cases he2 : e.1 = k2
      · simp [setKV, he, lookupKV, he2, h]
      · simp [setKV, he, lookupKV, he2, ih]

/-! ## The registry resolver (`load_registry_with_diagnostics`, `parse_repo_branch`) -/

/-- `parse_repo_branch(spec)`: parse `owner/repo@branch` with the branch
optional and defaulting to `main`.  `none` models the `ValueError` raised on
an empty (after strip) spec. -/
def parse_repo_branch (spec : String) : Option (String × String) :=
  let s := pyStrip spec
  if s.data.isEmpty then none
  else
    match splitFirst '@' s.data with
    | none => some (s, "main")
    | some (repoCs, branchCs) =>
      let repo := pyStrip (String.mk repoCs)
      let branch := pyStrip (String.mk branchCs)
      some (repo, if branch.data.isEmpty then "main" else branch)

/-- One item of the `secondary-repos` list: kept iff it is a string that
`parse_repo_branch` accepts; anything else is skipped individually. -/
def parseRegistryItem : JValue → Option (String × String)
  | JValue.str s => parse_repo_branch s
  | _ => none

/-- `load_registry_with_diagnostics(clone_dir)`: read the registry document
of the seed clone.  `file` is the registry file's content if it exists,
`parse` is `json.load`.  The result is `(entries, status message)`; the
outer `none` models the uncaught `AttributeError` raised by
`data.get("secondary-repos")` when the parsed document is not an object. -/
def load_registry_with_diagnostics (file : Option String)
    (parse : String → Option JValue) :
    Option (List (String × String) × String) :=
  match file with
  | none => some ([], "no registry file in seed clone")
  | some raw =>
    match parse raw with
    | none => some ([], "registry file present but not valid JSON")
    | some data =>
      match dataGet data "secondary-repos" with
      | none => none
      | some items? =>
        match items? with
        | some (JValue.arr items) =>
          let out := items.foldl
            (fun acc it =>
              match parseRegistryItem it with
              | some rb => acc ++ [rb]
              | none => acc)
            []
          if out.isEmpty then
            some ([], "registry file present but contains 0 valid secondary entries")
          else some (out, "seed registry")
        | _ => some ([], "registry file present but missing secondary-repos list")

theorem registry_fold_eq_filterMap (items : List JValue)
    (acc : List (String × String)) :
    items.foldl
      (fun acc it =>
        match parseRegistryItem it with
        | some rb => acc ++ [rb]
        | none => acc)
      acc = acc ++ items.filterMap parseRegistryItem := by
  induction items generalizing acc with
  | nil => simp
  | cons it rest ih =>
    cases h : parseRegistryItem it with
    | none => simp [List.foldl_cons, h, ih, List.filterMap_cons]
    | some rb => simp [List.foldl_cons, h, ih, List.filterMap_cons, List.append_assoc]

theorem filterMap_eq_of_mapM (l : List JValue) (es : List (String × String))
    (h : l.mapM parseRegistryItem = some es) :
    l.filterMap parseRegistryItem = es := by
  induction l generalizing es with
  | nil =>
    simp only [List.mapM_nil, pure, Option.some.injEq] at h
    simp [h]
  | cons a rest ih =>
    rw [List.mapM_cons] at h
    cases ha : parseRegistryItem a with
    | none => rw [ha] at h; simp at h
    | some b =>
      rw [ha] at h
      cases hrest : rest.mapM parseRegistryItem with
      | none => rw [hrest] at h; simp at h
      | some bs =>
        rw [hrest] at h
        simp at h
        simp [List.filterMap_cons, ha, ih bs hrest, h]

/-- C9: for a registry document that is a JSON object whose
`secondary-repos` entry is a list of string tokens each accepted by
`parse_repo_branch`, resolution returns exactly those tokens' parses, in
order; and a non-empty token without an `@` separator parses to the token
itself with the fixed default revision `main`. -/
theorem registry_resolution_exact (parse : String → Option JValue) (raw : String)
    (kvs : JEntries) (items : List JValue) (entries : List (String × String))
    (h1 : parse raw = some (JValue.obj kvs))
    (h2 : lookupKV kvs "secondary-repos" = some (JValue.arr items))
    (h3 : items.mapM parseRegistryItem = some entries) :
    load_registry_with_diagnostics (some raw) parse =
      some (entries,
        if entries.isEmpty then
          "registry file present but contains 0 valid secondary entries"
        else "seed registry")
    ∧ (∀ s : String, (pyStrip s).data ≠ [] →
        splitFirst '@' (pyStrip s).data = none →
        parse_repo_branch s = some (pyStrip s, "main")) := by
  constructor
  · simp only [load_registry_with_diagnostics, h1, dataGet, h2]
    rw [registry_fold_eq_filterMap items [], List.nil_append,
      filterMap_eq_of_mapM items entries h3]
    by_cases he : entries.isEmpty
    · have : entries = [] := by
        cases entries with
        | nil => rfl
        | cons x xs => simp [List.isEmpty] at he
      simp [this]
    · simp [he]
  · intro s hne hsplit
    unfold parse_repo_branch
    have : (pyStrip s).data.isEmpty = false := by
      cases hd : (pyStrip s).data with
      | nil => exact absurd hd hne
      | cons c cs => simp
    simp [this, hsplit]

/-- Witness for C9: a registry with tokens `org/x@v1` and `org/y` resolves
to `[(org/x, v1), (org/y, main)]`. -/
theorem registry_resolution_exact_witness :
    load_registry_with_diagnostics (some "reg")
      (fun r =>
        if r = "reg" then
          some (JValue.obj [("secondary-repos",
            JValue.arr [JValue.str "org/x@v1", JValue.str "org/y"])])
        else none) =
      some ([("org/x", "v1"), ("org/y", "main")], "seed registry") := by
  have h := registry_resolution_exact
    (fun r =>
      if r = "reg" then
        some (JValue.obj [("secondary-repos",
          JValue.arr [JValue.str "org/x@v1", JValue.str "org/y"])])
      else none)
    "reg"
    [("secondary-repos", JValue.arr [JValue.str "org/x@v1", JValue.str "org/y"])]
    [JValue.str "org/x@v1", JValue.str "org/y"]
    [("org/x", "v1"), ("org/y", "main")]
    rfl rfl rfl
  exact h.1

/-- C6: evaluation of the registry resolver at the degraded inputs.  A
missing file, an unparsable file, and an object without the
`secondary-repos` list all degrade to the empty entry list without failing,
but a file whose content is the VALID JSON text `[]` (a non-object) makes
`data.get("secondary-repos")` raise an uncaught `AttributeError` (result
`none`), contradicting both the claim and the function's own docstring
("This function must never raise"). -/
theorem registry_nonobject_raises :
    load_registry_with_diagnostics (some "[]")
      (fun s => if s = "[]" then some (JValue.arr []) else none) = none
    ∧ load_registry_with_diagnostics none (fun _ => none) =
      some ([], "no registry file in seed clone")
    ∧ load_registry_with_diagnostics (some "not json") (fun _ => none) =
      some ([], "registry file present but not valid JSON")
    ∧ load_registry_with_diagnostics (some "{}")
        (fun s => if s = "{}" then some (JValue.obj []) else none) =
      some ([], "registry file present but missing secondary-repos list") := by
  refine ⟨?_, rfl, rfl, ?_⟩ <;> decide

/-! ## The prune engine (`_load_prune_list_from_file`, `_collect_prune_lists`,
`apply_prune_list`)

Prune-list documents are given as parsed values (`none` models a missing or
unparsable file, which `_load_prune_list_from_file` turns into empty sets).
Identifier strings are joined to `target_dir/skills` or
`target_dir/competencies` with pathlib `/` and then resolved by the OS when
`exists()`/`rmtree` run, so `/`-separated segments and `..` components take
effect: `resolveUnder` embeds that resolution. -/

/-- Extract one identifier list (`skills` or `competencies`) from a parsed
prune document: strings only, stripped, empty entries dropped, set
semantics (deduplicated). -/
def pruneIdsOf (doc : Option JValue) (key : String) : List String :=
  match doc with
  | none => []
  | some d =>
    match d with
    | JValue.obj kvs =>
      match lookupKV kvs key with
      | some (JValue.arr xs) =>
        (xs.filterMap (fun x =>
          match x with
          | JValue.str s =>
            if (pyStrip s).data.isEmpty then none else some (pyStrip s)
          | _ => none)).dedup
      | _ => []
    | _ => []

/-- `_load_prune_list_from_file(path)`: the `(skills, competencies)`
identifier sets of one prune document; never fails. -/
def _load_prune_list_from_file (doc : Option JValue) : List String × List String :=
  (pruneIdsOf doc "skills", pruneIdsOf doc "competencies")

/-- `_collect_prune_lists(...)`: union the identifier sets of every
discovered prune document (represented by membership in the result lists). -/
def _collect_prune_lists (docs : List (Option JValue)) : List String × List String :=
  docs.foldl
    (fun acc doc =>
      let sc := _load_prune_list_from_file doc
      (acc.1 ++ sc.1, acc.2 ++ sc.2))
    ([], [])

/-- Splitting an identifier on `/` (how pathlib treats a multi-segment
operand of `/`). -/
def splitSlash (s : String) : List String :=
  (splitOnChar '/' s.data).map String.mk

/-- OS-level resolution of `base / segs`: `..` pops a segment, `.` and empty
segments are ignored (symlinks are outside the model; resolution below the
modelled root is clamped at the root). -/
def resolveUnder (base : FPath) (segs : List String) : FPath :=
  segs.foldl
    (fun acc seg =>
      if seg = ".." then acc.dropLast
      else if seg = "." then acc
      else if seg = "" then acc
      else acc ++ [seg])
    base

/-- One deletion step of `apply_prune_list`: resolve
`<namespace>/<identifier>` under the target root; if it exists and is a
directory, `rmtree` it, otherwise skip (printed, never an error). -/
def pruneOne (root : FS) (ns : String) (sid : String) : FS :=
  let victim := resolveUnder [ns] (splitSlash sid)
  if fsDirExists root victim then eraseUnder root victim else root

/-- The deletion phase of `apply_prune_list(...)`: delete each listed skill
under `skills/` then each listed competency under `competencies/`
(Python iterates `sorted(set)`; the model deduplicates, and the iteration
order does not affect the result). -/
def apply_prune_list (root : FS) (skills comps : List String) : FS :=
  let r1 := skills.dedup.foldl (fun acc sid => pruneOne acc "skills" sid) root
  comps.dedup.foldl (fun acc cid => pruneOne acc "competencies" cid) r1

theorem collect_prune_lists_acc (docs : List (Option JValue))
    (acc : List String × List String) :
    docs.foldl
      (fun acc doc =>
        let sc := _load_prune_list_from_file doc
        (acc.1 ++ sc.1, acc.2 ++ sc.2))
      acc =
    (acc.1 ++ (docs.map (fun d => pruneIdsOf d "skills")).flatten,
     acc.2 ++ (docs.map (fun d => pruneIdsOf d "competencies")).flatten) := by
  induction docs generalizing acc with
  | nil => simp
  | cons d rest ih =>
    rw [List.foldl_cons, ih]
    simp [_load_prune_list_from_file, List.append_assoc]

/-- C4: the effective deletion set collected from the discovered prune
documents is the set union (membership-wise) of the per-document skill sets
and of the per-document competency sets, with no precedence between
sources; and an identifier whose resolved subtree does not exist in the
installation root is skipped by the deletion phase: no change, no error. -/
theorem prune_union_and_skip (docs : List (Option JValue)) :
    (∀ s, s ∈ (_collect_prune_lists docs).1 ↔
      ∃ d, d ∈ docs ∧ s ∈ (_load_prune_list_from_file d).1)
    ∧ (∀ c, c ∈ (_collect_prune_lists docs).2 ↔
      ∃ d, d ∈ docs ∧ c ∈ (_load_prune_list_from_file d).2)
    ∧ (∀ root ns sid,
        fsDirExists root (resolveUnder [ns] (splitSlash sid)) = false →
        pruneOne root ns sid = root) := by
  refine ⟨?_, ?_, ?_⟩
  · intro s
    unfold _collect_prune_lists
    rw [collect_prune_lists_acc]
    simp [List.mem_flatten, _load_prune_list_from_file]
  · intro c
    unfold _collect_prune_lists
    rw [collect_prune_lists_acc]
    simp [List.mem_flatten, _load_prune_list_from_file]
  · intro root ns sid h
    unfold pruneOne
    simp [h]

/-- Witness for C4: two one-entry documents `{"skills": ["a"]}` and
`{"skills": ["b"]}` collect to a set containing both `a` and `b`, and
pruning an identifier with no subtree leaves the root unchanged. -/
theorem prune_union_and_skip_witness :
    ("a" ∈ (_collect_prune_lists
        [some (JValue.obj [("skills", JValue.arr [JValue.str "a"])]),
         some (JValue.obj [("skills", JValue.arr [JValue.str "b"])])]).1
      ∧ "b" ∈ (_collect_prune_lists
        [some (JValue.obj [("skills", JValue.arr [JValue.str "a"])]),
         some (JValue.obj [("skills", JValue.arr [JValue.str "b"])])]).1)
    ∧ pruneOne [(["skills", "keep", "f.md"], "k")] "skills" "ghost" =
        [(["skills", "keep", "f.md"], "k")] := by
  constructor
  · constructor
    · exact ((prune_union_and_skip _).1 "a").2
        ⟨some (JValue.obj [("skills", JValue.arr [JValue.str "a"])]),
          by simp, by decide⟩
    · exact ((prune_union_and_skip _).1 "b").2
        ⟨some (JValue.obj [("skills", JValue.arr [JValue.str "b"])]),
          by simp, by decide⟩
  · exact (prune_union_and_skip []).2.2 _ "skills" "ghost" (by decide)

/-- C7: the prune engine does NOT refuse identifiers that resolve outside
the `skills`/`competencies` namespaces.  With the prune list
`{"skills": ["../foo"]}`, pathlib joins `target/skills/../foo`, the OS
resolves it to `target/foo`, and `rmtree` deletes the whole `foo` subtree
sitting OUTSIDE both namespaces, while the in-namespace content stays.
This contradicts the claim and the function's own docstring ("never
deletes anything outside: <target_dir>/skills/<id>,
<target_dir>/competencies/<id>"). -/
theorem prune_path_traversal_escapes :
    fsLookup (apply_prune_list
        [(["skills", "real", "f.md"], "x"), (["foo", "g.md"], "y")]
        ["../foo"] [])
      ["foo", "g.md"] = none
    ∧ fsLookup [(["skills", "real", "f.md"], "x"), (["foo", "g.md"], "y")]
        ["foo", "g.md"] = some "y"
    ∧ fsLookup (apply_prune_list
        [(["skills", "real", "f.md"], "x"), (["foo", "g.md"], "y")]
        ["../foo"] [])
      ["skills", "real", "f.md"] = some "x" := by
  refine ⟨?_, rfl, ?_⟩ <;> decide

/-! ## The config normalizer (`sanitize_global_competency_collections`)

The config document is a JSON object (`JEntries`, per the external-interface
schema); `sanitize_global_competency_collections` takes the parsed document
and returns the rewritten document when something changed (`some`, modelling
the `json.dump` rewrite that also updates `metadata.lastUpdated` to `now`),
or `none` when nothing changed and the persisted form is left untouched.
A missing or unparsable document file (handled by early `return` in the
source) is simply not passed in. -/

/-- The fixed legacy-to-current rename table (`replacements` in the source). -/
def competencyReplacements : List (String × String) :=
  [("my-prompts", "team-competencies"),
   ("olaf-olaf-admin", "haal-admin"),
   ("olaf-admin", "haal-admin")]

/-- `replacements.get(c, c)`: rename a legacy identifier, or keep it. -/
def applyReplacement (c : String) : String :=
  match competencyReplacements.find? (fun kv => kv.1 == c) with
  | some kv => kv.2
  | none => c

/-- `exists_globally(comp_id)`: the competency's manifest file exists, or
the competency path exists at all under `competencies/`. -/
def exists_globally (fs : FS) (cid : String) : Bool :=
  (fsLookup fs ["competencies", cid, "competency-manifest.json"]).isSome ||
  fsPathExists fs ["competencies", cid]

/-- The `normalized` list of the source: keep only string identifiers and
apply the rename table to each. -/
def normalizeCompIds (comps : List JValue) : List String :=
  comps.filterMap (fun c =>
    match c with
    | JValue.str s => some (applyReplacement s)
    | _ => none)

/-- The `filtered` list of the source: drop identifiers (after rename) with
no corresponding competency in the installation root. -/
def filterExisting (ex : String → Bool) (ids : List String) : List String :=
  ids.filter ex

/-- Python's `filtered != comps` comparison between the new `list[str]` and
the original JSON list. -/
def strListEqJ : List String → List JValue → Bool
  | [], [] => true
  | s :: ss, JValue.str t :: ts => s == t && strListEqJ ss ts
  | _, _ => false

/-- One iteration of the per-collection loop of
`sanitize_global_competency_collections`, given the result `acc` for the
remaining collections.  A non-object entry is dropped WITHOUT setting
`changed` (as in the source); an entry without a `competencies` list is
kept as is; otherwise the identifier list is renamed and filtered, the
entry is rewritten only when the result differs from the original list,
and an entry whose filtered list is empty is dropped with `changed` set. -/
def processColl (ex : String → Bool) (coll : JValue)
    (acc : List JValue × Bool) : List JValue × Bool :=
  match coll with
  | JValue.obj kvs =>
    match lookupKV kvs "competencies" with
    | some (JValue.arr comps) =>
      let filtered := filterExisting ex (normalizeCompIds comps)
      if filtered.isEmpty then (acc.1, true)
      else
        ((if strListEqJ filtered comps then JValue.obj kvs
          else JValue.obj (setKV kvs "competencies"
            (JValue.arr (filtered.map JValue.str)))) :: acc.1,
         (!(strListEqJ filtered comps)) || acc.2)
    | _ => (coll :: acc.1, acc.2)
  | _ => (acc.1, acc.2)

/-- The per-collection loop of `sanitize_global_competency_collections`:
returns the new `collections` list and the `changed` flag. -/
def sanitizeCollections (ex : String → Bool) : List JValue → List JValue × Bool
  | [] => ([], false)
  | coll :: rest => processColl ex coll (sanitizeCollections ex rest)

/-- `sanitize_global_competency_collections(target_dir)` on the parsed
config document: `some newDoc` iff something changed (the document is then
rewritten with the new collections and `metadata.lastUpdated := now`),
`none` when no change is made and nothing is written. -/
def sanitize_global_competency_collections (fs : FS) (now : String)
    (doc : JEntries) : Option JEntries :=
  match lookupKV doc "collections" with
  | some (JValue.arr collections) =>
    let res := sanitizeCollections (exists_globally fs) collections
    if res.2 then
      let d1 := setKV doc "collections" (JValue.arr res.1)
      let metaKvs :=
        match lookupKV d1 "metadata" with
        | some (JValue.obj m) => m
        | _ => ([] : JEntries)
      some (setKV d1 "metadata"
        (JValue.obj (setKV metaKvs "lastUpdated" (JValue.str now))))
    else none
  | _ => none

/-- The document as persisted after one normalizer run. -/
def applySanitize (fs : FS) (now : String) (doc : JEntries) : JEntries :=
  (sanitize_global_competency_collections fs now doc).getD doc

theorem applyReplacement_eq (c : String) :
    applyReplacement c =
      if c = "my-prompts" then "team-competencies"
      else if c = "olaf-olaf-admin" then "haal-admin"
      else if c = "olaf-admin" then "haal-admin"
      else c := by
  by_cases h1 : c = "my-prompts"
  · subst h1; rfl
  · by_cases h2 : c = "olaf-olaf-admin"
    · subst h2; rfl
    · by_cases h3 : c = "olaf-admin"
      · subst h3; rfl
      · simp only [h1, h2, h3, if_false]
        have hnone : competencyReplacements.find? (fun kv => kv.1 == c) = none := by
          rw [List.find?_eq_none]
          intro x hx
          simp only [competencyReplacements, List.mem_cons,
            List.not_mem_nil, or_false] at hx
          rcases hx with rfl | rfl | rfl
          · simpa using fun h => h1 h.symm
          · simpa using fun h => h2 h.symm
          · simpa using fun h => h3 h.symm
        unfold applyReplacement
        rw [hnone]

theorem applyReplacement_idem (c : String) :
    applyReplacement (applyReplacement c) = applyReplacement c := by
  rw [applyReplacement_eq c]
  by_cases h1 : c = "my-prompts"
  · rw [if_pos h1]; rfl
  · rw [if_neg h1]
    by_cases h2 : c = "olaf-olaf-admin"
    · rw [if_pos h2]; rfl
    · rw [if_neg h2]
      by_cases h3 : c = "olaf-admin"
      · rw [if_pos h3]; rfl
      · rw [if_neg h3, applyReplacement_eq c, if_neg h1, if_neg h2, if_neg h3]

theorem strListEqJ_iff (ss : List String) (js : List JValue) :
    strListEqJ ss js = true ↔ js = ss.map JValue.str := by
  induction ss generalizing js with
  | nil =>
    cases js with
    | nil => simp [strListEqJ]
    | cons j js2 => simp [strListEqJ]
  | cons s ss2 ih =>
    cases js with
    | nil => simp [strListEqJ]
    | cons j js2 =>
      cases j with
      | str t =>
        simp only [strListEqJ, Bool.and_eq_true, beq_iff_eq, ih,
          List.map_cons, List.cons.injEq, JValue.str.injEq]
        exact ⟨fun h => ⟨h.1.symm, h.2⟩, fun h => ⟨h.1.symm, h.2⟩⟩
      | null => simp [strListEqJ]
      | bool b => simp [strListEqJ]
      | num n => simp [strListEqJ]
      | arr xs => simp [strListEqJ]
      | obj kvs => simp [strListEqJ]

theorem strListEqJ_self (ss : List String) :
    strListEqJ ss (ss.map JValue.str) = true :=
  (strListEqJ_iff ss (ss.map JValue.str)).2 rfl

theorem normalizeCompIds_map_str (ids : List String) :
    normalizeCompIds (ids.map JValue.str) = ids.map applyReplacement := by
  induction ids with
  | nil => rfl
  | cons s rest ih => simp [normalizeCompIds, List.filterMap_cons] at ih ⊢; exact ih

theorem mem_normalizeCompIds (comps : List JValue) (x : String)
    (h : x ∈ normalizeCompIds comps) : ∃ s, x = applyReplacement s := by
  unfold normalizeCompIds at h
  rw [List.mem_filterMap] at h
  obtain ⟨j, _, hj⟩ := h
  cases j with
  | str s => exact ⟨s, by simpa using hj.symm⟩
  | null => simp at hj
  | bool b => simp at hj
  | num n => simp at hj
  | arr xs => simp at hj
  | obj kvs => simp at hj

theorem refilter_fixed (ex : String → Bool) (comps : List JValue) :
    filterExisting ex (normalizeCompIds
      ((filterExisting ex (normalizeCompIds comps)).map JValue.str)) =
    filterExisting ex (normalizeCompIds comps) := by
  rw [normalizeCompIds_map_str]
  have hmap : (filterExisting ex (normalizeCompIds comps)).map applyReplacement =
      filterExisting ex (normalizeCompIds comps) := by
    have : ∀ x ∈ filterExisting ex (normalizeCompIds comps),
        applyReplacement x = x := by
      intro x hx
      have hx2 : x ∈ normalizeCompIds comps :=
        (List.mem_filter.1 hx).1
      obtain ⟨s, hs⟩ := mem_normalizeCompIds comps x hx2
      rw [hs, applyReplacement_idem]
    calc (filterExisting ex (normalizeCompIds comps)).map applyReplacement
        = (filterExisting ex (normalizeCompIds comps)).map id :=
          List.map_congr_left this
      _ = filterExisting ex (normalizeCompIds comps) := List.map_id _
  rw [hmap]
  unfold filterExisting
  rw [List.filter_eq_self]
  intro a ha
  exact (List.mem_filter.1 ha).2

theorem sanitizeCollections_cons (ex : String → Bool) (coll : JValue)
    (rest : List JValue) :
    sanitizeCollections ex (coll :: rest) =
      processColl ex coll (sanitizeCollections ex rest) := rfl

/-- Rerunning the collection loop on its own output changes nothing. -/
theorem sanitizeCollections_idem (ex : String → Bool) (colls : List JValue) :
    sanitizeCollections ex (sanitizeCollections ex colls).1 =
      ((sanitizeCollections ex colls).1, false) := by
  induction colls with
  | nil => rfl
  | cons coll rest ih =>
    rw [sanitizeCollections_cons]
    cases coll with
    | null => simpa [processColl] using ih
    | bool b => simpa [processColl] using ih
    | num n => simpa [processColl] using ih
    | str s => simpa [processColl] using ih
    | arr xs => simpa [processColl] using ih
    | obj kvs =>
      cases hl : lookupKV kvs "competencies" with
      | none =>
        simp only [processColl, hl]
        rw [sanitizeCollections_cons, ih]
        simp [processColl, hl]
      | some v =>
        cases v with
        | arr comps =>
          simp only [processColl, hl]
          cases he : (filterExisting ex (normalizeCompIds comps)).isEmpty with
          | true =>
            simp only [he, if_true]
            exact ih
          | false =>
            simp only [he, Bool.false_eq_true, if_false]
            cases hstr : strListEqJ (filterExisting ex (normalizeCompIds comps)) comps with
            | true =>
              simp only [hstr, if_true, Bool.not_true, Bool.false_or]
              rw [sanitizeCollections_cons, ih]
              simp [processColl, hl, he, hstr]
            | false =>
              simp only [hstr, Bool.false_eq_true, if_false, Bool.not_false, Bool.true_or]
              rw [sanitizeCollections_cons, ih]
              simp only [processColl, lookupKV_setKV_self]
              rw [refilter_fixed ex comps]
              simp [he, strListEqJ_self]
        | null =>
          simp only [processColl, hl]
          rw [sanitizeCollections_cons, ih]
          simp [processColl, hl]
        | bool b =>
          simp only [processColl, hl]
          rw [sanitizeCollections_cons, ih]
          simp [processColl, hl]
        | num n =>
          simp only [processColl, hl]
          rw [sanitizeCollections_cons, ih]
          simp [processColl, hl]
        | str s =>
          simp only [processColl, hl]
          rw [sanitizeCollections_cons, ih]
          simp [processColl, hl]
        | obj kvs2 =>
          simp only [processColl, hl]
          rw [sanitizeCollections_cons, ih]
          simp [processColl, hl]

/-- Every group kept by the collection loop that has an identifier list has
a non-empty one. -/
theorem sanitizeCollections_no_empty (ex : String → Bool) (colls : List JValue) :
    ∀ coll ∈ (sanitizeCollections ex colls).1, ∀ kvs comps,
      coll = JValue.obj kvs →
      lookupKV kvs "competencies" = some (JValue.arr comps) → comps ≠ [] := by
  induction colls with
  | nil => intro coll h; simp [sanitizeCollections] at h
  | cons c rest ih =>
    intro coll hmem kvs comps hc hk
    rw [sanitizeCollections_cons] at hmem
    cases c with
    | null => exact ih coll hmem kvs comps hc hk
    | bool b => exact ih coll hmem kvs comps hc hk
    | num n => exact ih coll hmem kvs comps hc hk
    | str s => exact ih coll hmem kvs comps hc hk
    | arr xs => exact ih coll hmem kvs comps hc hk
    | obj kvs0 =>
      cases hl : lookupKV kvs0 "competencies" with
      | none =>
        simp only [processColl, hl] at hmem
        rcases List.mem_cons.1 hmem with h | h
        · subst hc
          have hkv : kvs = kvs0 := by injection h
          rw [hkv, hl] at hk
          simp at hk
        · exact ih coll h kvs comps hc hk
      | some v =>
        cases v with
        | arr comps0 =>
          simp only [processColl, hl] at hmem
          cases he : (filterExisting ex (normalizeCompIds comps0)).isEmpty with
          | true =>
            rw [he] at hmem
            simp only [if_true] at hmem
            exact ih coll hmem kvs comps hc hk
          | false =>
            rw [he] at hmem
            simp only [Bool.false_eq_true, if_false] at hmem
            rcases List.mem_cons.1 hmem with h | h
            · cases hstr : strListEqJ (filterExisting ex (normalizeCompIds comps0)) comps0 with
              | true =>
                rw [hstr] at h
                simp only [if_true] at h
                subst hc
                injection h with hkv
                subst hkv
                rw [hl] at hk
                injection hk with hk2
                injection hk2 with hk3
                have hc0 : comps0 = (filterExisting ex (normalizeCompIds comps0)).map JValue.str :=
                  (strListEqJ_iff _ _).1 hstr
                intro hnil
                rw [← hk3, hc0] at hnil
                have : (filterExisting ex (normalizeCompIds comps0)) = [] :=
                  List.map_eq_nil_iff.1 hnil
                rw [this] at he
                simp at he
              | false =>
                rw [hstr] at h
                simp only [Bool.false_eq_true, if_false] at h
                subst hc
                injection h with hkv
                subst hkv
                rw [lookupKV_setKV_self] at hk
                injection hk with hk2
                injection hk2 with hk3
                intro hnil
                rw [← hk3] at hnil
                have : (filterExisting ex (normalizeCompIds comps0)) = [] :=
                  List.map_eq_nil_iff.1 hnil
                rw [this] at he
                simp at he
            · exact ih coll h kvs comps hc hk
        | null =>
          simp only [processColl, hl] at hmem
          rcases List.mem_cons.1 hmem with h | h
          · subst hc
            have hkv : kvs = kvs0 := by injection h
            rw [hkv, hl] at hk
            simp at hk
          · exact ih coll h kvs comps hc hk
        | bool b =>
          simp only [processColl, hl] at hmem
          rcases List.mem_cons.1 hmem with h | h
          · subst hc
            have hkv : kvs = kvs0 := by injection h
            rw [hkv, hl] at hk
            simp at hk
          · exact ih coll h kvs comps hc hk
        | num n =>
          simp only [processColl, hl] at hmem
          rcases List.mem_cons.1 hmem with h | h
          · subst hc
            have hkv : kvs = kvs0 := by injection h
            rw [hkv, hl] at hk
            simp at hk
          · exact ih coll h kvs comps hc hk
        | str s =>
          simp only [processColl, hl] at hmem
          rcases List.mem_cons.1 hmem with h | h
          · subst hc
            have hkv : kvs = kvs0 := by injection h
            rw [hkv, hl] at hk
            simp at hk
          · exact ih coll h kvs comps hc hk
        | obj kvs2 =>
          simp only [processColl, hl] at hmem
          rcases List.mem_cons.1 hmem with h | h
          · subst hc
            have hkv : kvs = kvs0 := by injection h
            rw [hkv, hl] at hk
            simp at hk
          · exact ih coll h kvs comps hc hk

theorem processColl_flag (ex : String → Bool) (c : JValue)
    (acc : List JValue × Bool) (h : (processColl ex c acc).2 = false) :
    acc.2 = false := by
  cases c with
  | null => simpa [processColl] using h
  | bool b => simpa [processColl] using h
  | num n => simpa [processColl] using h
  | str s => simpa [processColl] using h
  | arr xs => simpa [processColl] using h
  | obj kvs =>
    cases hl : lookupKV kvs "competencies" with
    | none => simpa [processColl, hl] using h
    | some v =>
      cases v with
      | arr comps =>
        simp only [processColl, hl] at h
        cases he : (filterExisting ex (normalizeCompIds comps)).isEmpty with
        | true => rw [he] at h; simp at h
        | false =>
          rw [he] at h
          simp only [Bool.false_eq_true, if_false, Bool.or_eq_false_iff] at h
          exact h.2
      | null => simpa [processColl, hl] using h
      | bool b => simpa [processColl, hl] using h
      | num n => simpa [processColl, hl] using h
      | str s => simpa [processColl, hl] using h
      | obj kvs2 => simpa [processColl, hl] using h

/-- If the collection loop reports no change, no input group had an empty
identifier list (an empty group always sets `changed` and is dropped). -/
theorem sanitizeCollections_flag_false (ex : String → Bool) (colls : List JValue)
    (h : (sanitizeCollections ex colls).2 = false) :
    ∀ coll ∈ colls, ∀ kvs comps, coll = JValue.obj kvs →
      lookupKV kvs "competencies" = some (JValue.arr comps) → comps ≠ [] := by
  induction colls with
  | nil => intro coll hmem; simp at hmem
  | cons c rest ih =>
    intro coll hmem kvs comps hc hk
    rw [sanitizeCollections_cons] at h
    rcases List.mem_cons.1 hmem with rfl | hmem2
    · subst hc
      intro hnil
      subst hnil
      simp [processColl, hk, normalizeCompIds, filterExisting] at h
    · exact ih (processColl_flag ex c _ h) coll hmem2 kvs comps hc hk

theorem sanitize_none_inv (fs : FS) (now now2 : String) (doc : JEntries)
    (h : sanitize_global_competency_collections fs now doc = none) :
    sanitize_global_competency_collections fs now2 doc = none := by
  cases hl : lookupKV doc "collections" with
  | none =>
    unfold sanitize_global_competency_collections
    rw [hl]
  | some v =>
    cases v with
    | arr colls =>
      unfold sanitize_global_competency_collections at h ⊢
      rw [hl] at h ⊢
      cases hb : (sanitizeCollections (exists_globally fs) colls).2 with
      | true => simp [hb] at h
      | false => simp [hb]
    | null => unfold sanitize_global_competency_collections; rw [hl]
    | bool b => unfold sanitize_global_competency_collections; rw [hl]
    | num n => unfold sanitize_global_competency_collections; rw [hl]
    | str s => unfold sanitize_global_competency_collections; rw [hl]
    | obj kvs => unfold sanitize_global_competency_collections; rw [hl]

theorem sanitize_some_inv (fs : FS) (now : String) (doc : JEntries) (d2 : JEntries)
    (h : sanitize_global_competency_collections fs now doc = some d2) :
    ∃ colls, lookupKV doc "collections" = some (JValue.arr colls) ∧
      (sanitizeCollections (exists_globally fs) colls).2 = true ∧
      d2 = setKV (setKV doc "collections"
          (JValue.arr (sanitizeCollections (exists_globally fs) colls).1))
        "metadata"
        (JValue.obj (setKV
          (match lookupKV (setKV doc "collections"
              (JValue.arr (sanitizeCollections (exists_globally fs) colls).1))
              "metadata" with
            | some (JValue.obj m) => m
            | _ => ([] : JEntries))
          "lastUpdated" (JValue.str now))) := by
  cases hl : lookupKV doc "collections" with
  | none =>
    unfold sanitize_global_competency_collections at h
    rw [hl] at h
    simp at h
  | some v =>
    cases v with
    | arr colls =>
      unfold sanitize_global_competency_collections at h
      rw [hl] at h
      cases hb : (sanitizeCollections (exists_globally fs) colls).2 with
      | true =>
        simp only [hb, if_true] at h
        exact ⟨colls, rfl, hb, (Option.some.inj h).symm⟩
      | false => simp [hb] at h
    | null =>
      unfold sanitize_global_competency_collections at h
      rw [hl] at h
      simp at h
    | bool b =>
      unfold sanitize_global_competency_collections at h
      rw [hl] at h
      simp at h
    | num n =>
      unfold sanitize_global_competency_collections at h
      rw [hl] at h
      simp at h
    | str s =>
      unfold sanitize_global_competency_collections at h
      rw [hl] at h
      simp at h
    | obj kvs =>
      unfold sanitize_global_competency_collections at h
      rw [hl] at h
      simp at h

/-- C5: normalizing the config document is idempotent: rerunning the
normalizer on the document produced by a first run (the rewritten document
when something changed, the untouched document otherwise) changes nothing
and writes nothing (`none`); the persisted form is rewritten — with
`metadata.lastUpdated` set to the run timestamp — exactly when the first
run changed something; and after normalization no group with an identifier
list has an empty one: a group emptied by filtering is removed entirely. -/
theorem config_normalize_idempotent (fs : FS) (now now2 : String) (doc : JEntries) :
    sanitize_global_competency_collections fs now2 (applySanitize fs now doc) = none
    ∧ (∀ colls coll kvs comps,
        lookupKV (applySanitize fs now doc) "collections" = some (JValue.arr colls) →
        coll ∈ colls → coll = JValue.obj kvs →
        lookupKV kvs "competencies" = some (JValue.arr comps) → comps ≠ [])
    ∧ (∀ d2, sanitize_global_competency_collections fs now doc = some d2 →
        ∃ m, lookupKV d2 "metadata" = some (JValue.obj m) ∧
          lookupKV m "lastUpdated" = some (JValue.str now)) := by
  cases hs : sanitize_global_competency_collections fs now doc with
  | none =>
    have hd : applySanitize fs now doc = doc := by simp [applySanitize, hs]
    refine ⟨?_, ?_, ?_⟩
    · rw [hd]
      exact sanitize_none_inv fs now now2 doc hs
    · rw [hd]
      intro colls coll kvs comps hlook hmem hc hk
      have hflag : (sanitizeCollections (exists_globally fs) colls).2 = false := by
        unfold sanitize_global_competency_collections at hs
        rw [hlook] at hs
        cases hb : (sanitizeCollections (exists_globally fs) colls).2 with
        | true => simp [hb] at hs
        | false => rfl
      exact sanitizeCollections_flag_false _ colls hflag coll hmem kvs comps hc hk
    · intro d2 hd2
      exact absurd hd2 (by simp)
  | some d2 =>
    have hd : applySanitize fs now doc = d2 := by simp [applySanitize, hs]
    obtain ⟨colls, hl, hflag, hd2eq⟩ := sanitize_some_inv fs now doc d2 hs
    have hcolls2 : lookupKV d2 "collections" =
        some (JValue.arr (sanitizeCollections (exists_globally fs) colls).1) := by
      rw [hd2eq, lookupKV_setKV_other _ _ _ _ (by decide), lookupKV_setKV_self]
    refine ⟨?_, ?_, ?_⟩
    · rw [hd]
      unfold sanitize_global_competency_collections
      rw [hcolls2]
      have hidem := sanitizeCollections_idem (exists_globally fs) colls
      simp [hidem]
    · rw [hd]
      intro colls' coll kvs comps hlook hmem hc hk
      rw [hcolls2] at hlook
      have h1 : JValue.arr (sanitizeCollections (exists_globally fs) colls).1 =
          JValue.arr colls' := Option.some.inj hlook
      have h2 : (sanitizeCollections (exists_globally fs) colls).1 = colls' := by
        injection h1
      rw [← h2] at hmem
      exact sanitizeCollections_no_empty _ colls coll hmem kvs comps hc hk
    · intro d2' hd2'
      have heq : d2' = d2 := (Option.some.inj hd2').symm
      subst heq
      rw [hd2eq]
      exact ⟨_, by rw [lookupKV_setKV_self], by rw [lookupKV_setKV_self]⟩

/-- The installation root of the C5 witness: only `team-competencies` is
installed. -/
def sanitizeWitnessFS : FS :=
  [(["competencies", "team-competencies", "competency-manifest.json"], "m")]

/-- The config document of the C5 witness: one group listing the legacy id
`my-prompts` (renames to the installed `team-competencies`) and a missing
`ghost` id, so the first run changes the document. -/
def sanitizeWitnessDoc : JEntries :=
  [("collections", JValue.arr [JValue.obj
      [("id", JValue.str "core"),
       ("competencies", JValue.arr [JValue.str "my-prompts", JValue.str "ghost"])]]),
   ("metadata", JValue.obj [("active_collection", JValue.str "core")])]

/-- Witness for C5: the second run on the rewritten document reports no
change, and the rewritten document carries the first run's timestamp. -/
theorem config_normalize_idempotent_witness :
    sanitize_global_competency_collections sanitizeWitnessFS "T2"
      (applySanitize sanitizeWitnessFS "T1" sanitizeWitnessDoc) = none
    ∧ ∃ m, lookupKV (applySanitize sanitizeWitnessFS "T1" sanitizeWitnessDoc)
        "metadata" = some (JValue.obj m) ∧
        lookupKV m "lastUpdated" = some (JValue.str "T1") := by
  have h := config_normalize_idempotent sanitizeWitnessFS "T1" "T2" sanitizeWitnessDoc
  exact ⟨h.1, h.2.2 (applySanitize sanitizeWitnessFS "T1" sanitizeWitnessDoc) rfl⟩

/-- C8: during normalization the rename table is applied to each listed
identifier BEFORE existence filtering: a listed identifier whose renamed
form has a competency present in the installation root survives, in
renamed form; one whose renamed form still has no competency present is
dropped. -/
theorem rename_before_filter (fs : FS) (comps : List JValue) (c : String)
    (hmem : JValue.str c ∈ comps) :
    (exists_globally fs (applyReplacement c) = true →
      applyReplacement c ∈ filterExisting (exists_globally fs) (normalizeCompIds comps))
    ∧ (exists_globally fs (applyReplacement c) = false →
      applyReplacement c ∉ filterExisting (exists_globally fs) (normalizeCompIds comps)) := by
  constructor
  · intro hex
    unfold filterExisting
    rw [List.mem_filter]
    refine ⟨?_, hex⟩
    unfold normalizeCompIds
    rw [List.mem_filterMap]
    exact ⟨JValue.str c, hmem, rfl⟩
  · intro hex hmemf
    have hsat := (List.mem_filter.1 hmemf).2
    rw [hex] at hsat
    exact Bool.false_ne_true hsat

/-- Witness for C8: `my-prompts` renames to the installed
`team-competencies` and survives; `ghost` renames to itself, is absent from
the root, and is dropped. -/
theorem rename_before_filter_witness :
    "team-competencies" ∈ filterExisting (exists_globally sanitizeWitnessFS)
      (normalizeCompIds [JValue.str "my-prompts", JValue.str "ghost"])
    ∧ "ghost" ∉ filterExisting (exists_globally sanitizeWitnessFS)
      (normalizeCompIds [JValue.str "my-prompts", JValue.str "ghost"]) := by
  constructor
  · exact (rename_before_filter sanitizeWitnessFS
      [JValue.str "my-prompts", JValue.str "ghost"] "my-prompts" (by simp)).1 rfl
  · exact (rename_before_filter sanitizeWitnessFS
      [JValue.str "my-prompts", JValue.str "ghost"] "ghost" (by simp)).2 rfl

/-! ## Path and subtree lemmas for the state preserver -/

theorem isUnder_append (pre rest : FPath) : isUnder pre (pre ++ rest) = true := by
  induction pre with
  | nil => rfl
  | cons a as ih => simp [isUnder, ih]

theorem eq_of_isUnder (pre p : FPath) (h : isUnder pre p = true) :
    p = pre ++ p.drop pre.length := by
  induction pre generalizing p with
  | nil => simp
  | cons a as ih =>
    cases p with
    | nil => simp [isUnder] at h
    | cons b bs =>
      simp only [isUnder, Bool.and_eq_true, beq_iff_eq] at h
      obtain ⟨hab, hrest⟩ := h
      subst hab
      simpa using ih bs hrest

theorem drop_append_self (pre rest : FPath) :
    (pre ++ rest).drop pre.length = rest := List.drop_left pre rest

theorem fsLookup_some_mem (fs : FS) (p : FPath) (c : String)
    (h : fsLookup fs p = some c) : (p, c) ∈ fs := by
  induction fs with
  | nil => simp [fsLookup] at h
  | cons e rest ih =>
    by_cases he : e.1 = p
    · rw [fsLookup, if_pos he] at h
      have h2 : e.2 = c := Option.some.inj h
      have he3 : e = (p, c) := by
        cases e
        simp only at he h2
        rw [he, h2]
      rw [he3]
      exact List.mem_cons_self _ _
    · rw [fsLookup, if_neg he] at h
      exact List.mem_cons_of_mem _ (ih h)

theorem fsLookup_eq_none_of_keys (fs : FS) (p : FPath)
    (h : ∀ e ∈ fs, e.1 ≠ p) : fsLookup fs p = none := by
  induction fs with
  | nil => rfl
  | cons e rest ih =>
    rw [fsLookup, if_neg (h e (List.mem_cons_self e rest))]
    exact ih (fun e2 he2 => h e2 (List.mem_cons_of_mem _ he2))

theorem fsLookup_prefixAll (pre : FPath) (sub : FS) (rest : FPath) :
    fsLookup (prefixAll pre sub) (pre ++ rest) = fsLookup sub rest := by
  induction sub with
  | nil => rfl
  | cons e s ih =>
    by_cases he : e.1 = rest
    · simp [prefixAll, fsLookup, he]
    · have hne : ¬(pre ++ e.1 = pre ++ rest) := by
        intro hc
        exact he (List.append_cancel_left hc)
      simp only [prefixAll, List.map_cons, fsLookup, hne, if_false, if_neg he]
      simpa [prefixAll] using ih

theorem fsLookup_prefixAll_not (pre : FPath) (sub : FS) (p : FPath)
    (h : isUnder pre p = false) : fsLookup (prefixAll pre sub) p = none := by
  apply fsLookup_eq_none_of_keys
  intro e he hc
  simp only [prefixAll, List.mem_map] at he
  obtain ⟨e0, _, he0⟩ := he
  have hp : pre ++ e0.1 = p := by
    rw [← he0] at hc
    simpa using hc
  rw [← hp, isUnder_append] at h
  simp at h

theorem fsLookup_eraseUnder (fs : FS) (pre p : FPath) :
    fsLookup (eraseUnder fs pre) p =
      if isUnder pre p then none else fsLookup fs p := by
  unfold eraseUnder
  rw [fsLookup_filter_key (fun q => !(isUnder pre q)) fs p]
  cases h : isUnder pre p with
  | true => simp [h]
  | false => simp [h]

theorem fsLookup_graft_under (fs : FS) (pre : FPath) (sub : FS) (rest : FPath) :
    fsLookup (graft fs pre sub) (pre ++ rest) = fsLookup sub rest := by
  unfold graft
  rw [fsLookup_append, fsLookup_prefixAll, fsLookup_eraseUnder]
  rw [if_pos (isUnder_append pre rest)]
  cases h : fsLookup sub rest with
  | none => rfl
  | some c => rfl

theorem fsLookup_graft_not (fs : FS) (pre : FPath) (sub : FS) (p : FPath)
    (h : isUnder pre p = false) :
    fsLookup (graft fs pre sub) p = fsLookup fs p := by
  unfold graft
  rw [fsLookup_append, fsLookup_prefixAll_not pre sub p h, fsLookup_eraseUnder, h]
  simp

theorem fsLookup_subtreeAt (fs : FS) (pre rest : FPath) :
    fsLookup (subtreeAt fs pre) rest = fsLookup fs (pre ++ rest) := by
  induction fs with
  | nil => rfl
  | cons e s ih =>
    cases hu : isUnder pre e.1 with
    | true =>
      by_cases hd : e.1.drop pre.length = rest
      · have he : e.1 = pre ++ rest := by
          rw [← hd]
          exact eq_of_isUnder pre e.1 hu
        simp [subtreeAt, List.filterMap_cons, hu, fsLookup, hd, he,
          isUnder_append, drop_append_self]
      · have hne : e.1 ≠ pre ++ rest := by
          intro hc
          rw [hc, drop_append_self] at hd
          exact hd rfl
        simp only [subtreeAt, List.filterMap_cons, hu, if_true, fsLookup, hd,
          if_false, hne]
        simpa [subtreeAt] using ih
    | false =>
      have hne : e.1 ≠ pre ++ rest := by
        intro hc
        rw [hc, isUnder_append] at hu
        simp at hu
      simp only [subtreeAt, List.filterMap_cons, hu, Bool.false_eq_true,
        if_false, fsLookup, hne]
      simpa [subtreeAt] using ih

theorem subtreeAt_append (a b : FS) (pre : FPath) :
    subtreeAt (a ++ b) pre = subtreeAt a pre ++ subtreeAt b pre := by
  unfold subtreeAt
  exact List.filterMap_append a b _

theorem subtreeAt_prefixAll (pre : FPath) (s : FS) :
    subtreeAt (prefixAll pre s) pre = s := by
  induction s with
  | nil => rfl
  | cons e rest ih =>
    simp only [prefixAll, List.map_cons, subtreeAt, List.filterMap_cons,
      isUnder_append, if_true, drop_append_self]
    simpa [subtreeAt, prefixAll] using ih

theorem subtreeAt_nil_of_keys (fs : FS) (pre : FPath)
    (h : ∀ e ∈ fs, isUnder pre e.1 = false) : subtreeAt fs pre = [] := by
  induction fs with
  | nil => rfl
  | cons e rest ih =>
    simp only [subtreeAt, List.filterMap_cons, h e (List.mem_cons_self e rest),
      Bool.false_eq_true, if_false]
    exact ih (fun e2 he2 => h e2 (List.mem_cons_of_mem _ he2))

theorem isEmpty_false_of_lookup (fs : FS) (p : FPath) (c : String)
    (h : fsLookup fs p = some c) : fs.isEmpty = false := by
  cases fs with
  | nil => simp [fsLookup] at h
  | cons e rest => rfl

/-! ## The state preserver (`preserve_my_competencies`,
`restore_my_competencies`)

The kernel package is `competencies/my-competencies`; its manifest declares
a dependency set `bom.skills` of skill identifiers.  Preserve copies the
kernel directory and each existing dependency skill directory into a fresh
backup tree (`tempfile.mkdtemp`); restore deletes each colliding path in
the target and copies the preserved version back. -/

/-- The kernel package directory (`competencies/my-competencies`). -/
def myCompPath : FPath := ["competencies", "my-competencies"]

/-- The kernel package manifest file. -/
def manifestFilePath : FPath :=
  ["competencies", "my-competencies", "competency-manifest.json"]

/-- The NUL-byte sanitization of `_read_json_sanitized`
(`raw.replace(b"\x00", b"")`; the UTF-8 `errors="replace"` decoding is
outside the model, which already works on decoded text). -/
def stripNuls (s : String) : String :=
  String.mk (s.data.filter (fun c => c != Char.ofNat 0))

/-- Extracting the dependency skill set from the parsed manifest:
`manifest.get("bom")` (raising on a non-object manifest, outer `none`),
then the guarded reads of `bom["skills"]`, keeping non-empty strings as a
set (deduplicated). -/
def extractBomSkills : JValue → Option (List String)
  | JValue.obj kvs =>
    some
      (match lookupKV kvs "bom" with
        | some (JValue.obj bom) =>
          (match lookupKV bom "skills" with
            | some (JValue.arr ss) =>
              (ss.filterMap (fun s =>
                match s with
                | JValue.str t => if t = "" then none else some t
                | _ => none)).dedup
            | _ => [])
        | _ => [])
  | _ => none

/-- The preserved copy of one dependency skill directory, re-rooted at its
original path inside the backup tree. -/
def skillTreeOf (target : FS) (sid : String) : FS :=
  prefixAll ["skills", sid] (subtreeAt target ["skills", sid])

/-- `preserve_my_competencies(target_dir)`: `some (backup, skill_ids)` on
normal return (`backup = none` when the kernel manifest does not exist:
nothing to preserve); the outer `none` models the uncaught
`AttributeError` when the manifest file parses to a non-object.  A parse
failure (`parse ... = none`) is caught and degrades to the empty manifest
`{}`.  Dependency skill directories that do not exist are skipped. -/
def preserve_my_competencies (parse : String → Option JValue) (target : FS) :
    Option (Option FS × List String) :=
  match fsLookup target manifestFilePath with
  | none => some (none, [])
  | some raw =>
    match extractBomSkills ((parse (stripNuls raw)).getD (JValue.obj [])) with
    | none => none
    | some skill_ids =>
      some (some (prefixAll myCompPath (subtreeAt target myCompPath) ++
        skill_ids.foldl
          (fun acc sid =>
            if fsDirExists target ["skills", sid] then acc ++ skillTreeOf target sid
            else acc)
          []), skill_ids)

/-- The names of the child directories of `pre` (entries of `iterdir()`
that are directories: they contain at least one file strictly below
themselves). -/
def childDirNames (fs : FS) (pre : FPath) : List String :=
  (fs.filterMap (fun e =>
    if isUnder pre e.1 then
      match e.1.drop pre.length with
      | n :: _ :: _ => some n
      | _ => none
    else none)).dedup

/-- `restore_my_competencies(target_dir, backup_root)`: a `none` backup is
a no-op; otherwise the preserved kernel directory (when present in the
backup) replaces the target's kernel directory wholesale
(`rmtree_if_exists` + `copytree`), and every preserved skill directory
replaces the target's copy the same way. -/
def restore_my_competencies (target : FS) (backup : Option FS) : FS :=
  match backup with
  | none => target
  | some b =>
    let preservedComp := subtreeAt b myCompPath
    let t1 :=
      if preservedComp.isEmpty then target
      else graft target myCompPath preservedComp
    (childDirNames b ["skills"]).foldl
      (fun acc n => graft acc ["skills", n] (subtreeAt b ["skills", n])) t1

/-- A sequence of overlay merges applied to the installation root. -/
def applyMerges (merges : List (FS × List String)) (root : FS) : FS :=
  merges.foldl (fun acc m => merge_dir_excluding_top_level m.1 m.2 acc) root

theorem extractBomSkills_nodup (v : JValue) (l : List String)
    (h : extractBomSkills v = some l) : l.Nodup := by
  cases v with
  | obj kvs =>
    simp only [extractBomSkills, Option.some.injEq] at h
    subst h
    cases lookupKV kvs "bom" with
    | none => simp
    | some b =>
      cases b with
      | obj bom =>
        cases h2 : lookupKV bom "skills" with
        | none => simp [h2]
        | some sk =>
          cases sk with
          | arr ss => simp [h2, List.nodup_dedup]
          | null => simp [h2]
          | bool b2 => simp [h2]
          | num n2 => simp [h2]
          | str s2 => simp [h2]
          | obj o2 => simp [h2]
      | null => simp
      | bool b2 => simp
      | num n2 => simp
      | str s2 => simp
      | arr a2 => simp
  | null => simp [extractBomSkills] at h
  | bool b => simp [extractBomSkills] at h
  | num n => simp [extractBomSkills] at h
  | str s => simp [extractBomSkills] at h
  | arr xs => simp [extractBomSkills] at h

theorem foldl_append_if (c : String → Bool) (f : String → FS)
    (ids : List String) (init : FS) :
    ids.foldl (fun acc sid => if c sid then acc ++ f sid else acc) init =
      init ++ ((ids.filter c).map f).flatten := by
  induction ids generalizing init with
  | nil => simp
  | cons sid rest ih =>
    cases hc : c sid with
    | true => simp [List.foldl_cons, hc, ih, List.filter_cons, List.append_assoc]
    | false => simp [List.foldl_cons, hc, ih, List.filter_cons]

theorem fsLookup_flatten_blocks (target : FS) (l : List String) (sid : String)
    (p : FPath) (hnd : l.Nodup) (hmem : sid ∈ l) :
    fsLookup ((l.map (skillTreeOf target)).flatten) (["skills", sid] ++ p) =
      fsLookup (skillTreeOf target sid) (["skills", sid] ++ p) := by
  induction l with
  | nil => simp at hmem
  | cons m rest ih =>
    have hblock_none : ∀ m2, m2 ≠ sid →
        fsLookup (skillTreeOf target m2) (["skills", sid] ++ p) = none := by
      intro m2 hne
      apply fsLookup_eq_none_of_keys
      intro e he hc
      simp only [skillTreeOf, prefixAll, List.mem_map] at he
      obtain ⟨e0, _, he0⟩ := he
      have : ["skills", m2] ++ e0.1 = ["skills", sid] ++ p := by
        rw [← he0] at hc
        simpa using hc
      have : m2 = sid := by
        injection this with _ h2
        injection h2
      exact hne this
    rcases List.mem_cons.1 hmem with rfl | hmem2
    · rw [List.map_cons, List.flatten_cons, fsLookup_append]
      cases hb : fsLookup (skillTreeOf target sid) (["skills", sid] ++ p) with
      | some c => rfl
      | none =>
        simp only [Option.none_or]
        have hnotin : sid ∉ rest := (List.nodup_cons.1 hnd).1
        clear ih hmem hnd
        induction rest with
        | nil => rfl
        | cons m2 r2 ih2 =>
          rw [List.map_cons, List.flatten_cons, fsLookup_append]
          rw [hblock_none m2 (fun hc => hnotin (hc ▸ List.mem_cons_self m2 r2))]
          simp only [Option.none_or]
          exact ih2 (fun hc => hnotin (List.mem_cons_of_mem m2 hc))
    · rw [List.map_cons, List.flatten_cons, fsLookup_append]
      have hms : m ≠ sid := by
        intro hc
        subst hc
        exact (List.nodup_cons.1 hnd).1 hmem2
      rw [hblock_none m hms]
      simp only [Option.none_or]
      exact ih (List.nodup_cons.1 hnd).2 hmem2

theorem isUnder_head_ne (a b : String) (as bs : FPath) (h : a ≠ b) :
    isUnder (a :: as) (b :: bs) = false := by
  simp [isUnder, h]

theorem isUnder_skills_ne (n sid : String) (p : FPath) (h : n ≠ sid) :
    isUnder ["skills", n] (["skills", sid] ++ p) = false := by
  simp [isUnder, h]

theorem fold_graft_other (b : FS) (ns : List String) (acc : FS) (p : FPath)
    (h : ∀ n ∈ ns, isUnder ["skills", n] p = false) :
    fsLookup
      (ns.foldl (fun acc n => graft acc ["skills", n] (subtreeAt b ["skills", n])) acc)
      p = fsLookup acc p := by
  induction ns generalizing acc with
  | nil => rfl
  | cons n rest ih =>
    rw [List.foldl_cons, ih _ (fun m hm => h m (List.mem_cons_of_mem n hm))]
    exact fsLookup_graft_not acc _ _ p (h n (List.mem_cons_self n rest))

theorem fold_graft_mem (b : FS) (ns : List String) (acc : FS) (sid : String)
    (p : FPath)
    (h : sid ∈ ns ∨
      fsLookup acc (["skills", sid] ++ p) = fsLookup (subtreeAt b ["skills", sid]) p) :
    fsLookup
      (ns.foldl (fun acc n => graft acc ["skills", n] (subtreeAt b ["skills", n])) acc)
      (["skills", sid] ++ p) = fsLookup (subtreeAt b ["skills", sid]) p := by
  induction ns generalizing acc with
  | nil =>
    rcases h with h | h
    · simp at h
    · exact h
  | cons n rest ih =>
    rw [List.foldl_cons]
    by_cases hn : n = sid
    · subst hn
      apply ih
      right
      exact fsLookup_graft_under acc ["skills", n] _ p
    · rcases h with h | h
      · rcases List.mem_cons.1 h with h2 | h2
        · exact absurd h2.symm hn
        · exact ih _ (Or.inl h2)
      · apply ih
        right
        rw [fsLookup_graft_not acc _ _ _ (isUnder_skills_ne n sid p hn)]
        exact h

theorem preserve_some_inv (parse : String → Option JValue) (target : FS)
    (b : FS) (ids : List String)
    (h : preserve_my_competencies parse target = some (some b, ids)) :
    (∃ raw, fsLookup target manifestFilePath = some raw)
    ∧ ids.Nodup
    ∧ b = prefixAll myCompPath (subtreeAt target myCompPath) ++
        ((ids.filter (fun sid => fsDirExists target ["skills", sid])).map
          (skillTreeOf target)).flatten := by
  cases hm : fsLookup target manifestFilePath with
  | none =>
    unfold preserve_my_competencies at h
    rw [hm] at h
    simp at h
  | some raw =>
    unfold preserve_my_competencies at h
    simp only [hm] at h
    cases he : extractBomSkills ((parse (stripNuls raw)).getD (JValue.obj [])) with
    | none => simp [he] at h
    | some skill_ids =>
      simp only [he, Option.some.injEq, Prod.mk.injEq] at h
      obtain ⟨hb, hids⟩ := h
      subst hids
      refine ⟨⟨raw, rfl⟩, extractBomSkills_nodup _ _ he, ?_⟩
      rw [← hb, foldl_append_if, List.nil_append]

theorem mem_childDirNames_backup (target : FS) (ids : List String) (sid : String)
    (hdir : fsDirExists target ["skills", sid] = true)
    (hsid : sid ∈ ids) :
    sid ∈ childDirNames
      (prefixAll myCompPath (subtreeAt target myCompPath) ++
        ((ids.filter (fun s => fsDirExists target ["skills", s])).map
          (skillTreeOf target)).flatten)
      ["skills"] := by
  have hdir0 := hdir
  unfold fsDirExists at hdir
  rw [List.any_eq_true] at hdir
  obtain ⟨e, hemem, hep⟩ := hdir
  rw [Bool.and_eq_true, decide_eq_true_eq] at hep
  obtain ⟨hunder, hlen⟩ := hep
  have hek : e.1 = ["skills", sid] ++ e.1.drop 2 := by
    have h2 := eq_of_isUnder ["skills", sid] e.1 hunder
    simpa using h2
  have hkne : e.1.drop 2 ≠ [] := by
    intro hc
    rw [hek, hc, List.append_nil] at hlen
    simp at hlen
  have hsub : (e.1.drop 2, e.2) ∈ subtreeAt target ["skills", sid] := by
    rw [subtreeAt, List.mem_filterMap]
    exact ⟨e, hemem, by simp [hunder]⟩
  have hblk : ((["skills", sid] ++ e.1.drop 2 : FPath), e.2) ∈ skillTreeOf target sid := by
    rw [skillTreeOf, prefixAll, List.mem_map]
    exact ⟨(e.1.drop 2, e.2), hsub, rfl⟩
  have hinb : ((["skills", sid] ++ e.1.drop 2 : FPath), e.2) ∈
      (prefixAll myCompPath (subtreeAt target myCompPath) ++
        ((ids.filter (fun s => fsDirExists target ["skills", s])).map
          (skillTreeOf target)).flatten) := by
    apply List.mem_append_right
    rw [List.mem_flatten]
    refine ⟨skillTreeOf target sid, ?_, hblk⟩
    rw [List.mem_map]
    exact ⟨sid, List.mem_filter.2 ⟨hsid, hdir0⟩, rfl⟩
  unfold childDirNames
  rw [List.mem_dedup, List.mem_filterMap]
  refine ⟨_, hinb, ?_⟩
  cases hk : e.1.drop 2 with
  | nil => exact absurd hk hkne
  | cons c cs => simp [isUnder]

/-- C3: preserve, then any finite sequence of overlay merges (with any
excluded-name sets, including merges that write conflicting content into
the kernel package path), then restore leaves the kernel package subtree
and every preserved dependency skill subtree byte-identical to their state
at the moment of preserve. -/
theorem preserve_restore_roundtrip (parse : String → Option JValue) (target : FS)
    (merges : List (FS × List String)) (b : FS) (ids : List String)
    (h : preserve_my_competencies parse target = some (some b, ids)) :
    (∀ p, fsLookup
        (restore_my_competencies (applyMerges merges target) (some b))
        (myCompPath ++ p) = fsLookup target (myCompPath ++ p))
    ∧ (∀ sid, sid ∈ ids → fsDirExists target ["skills", sid] = true →
        ∀ p, fsLookup
          (restore_my_competencies (applyMerges merges target) (some b))
          (["skills", sid] ++ p) = fsLookup target (["skills", sid] ++ p)) := by
  obtain ⟨⟨raw, hm⟩, hnd, hb⟩ := preserve_some_inv parse target b ids h
  have hkeys : ∀ e ∈ ((ids.filter (fun sid => fsDirExists target ["skills", sid])).map
      (skillTreeOf target)).flatten, isUnder myCompPath e.1 = false := by
    intro e he
    rw [List.mem_flatten] at he
    obtain ⟨blk, hblk, heblk⟩ := he
    rw [List.mem_map] at hblk
    obtain ⟨m, _, hm2⟩ := hblk
    rw [← hm2] at heblk
    simp only [skillTreeOf, prefixAll, List.mem_map] at heblk
    obtain ⟨e0, _, he0⟩ := heblk
    have hkey : e.1 = ["skills", m] ++ e0.1 := by
      rw [← he0]
    rw [hkey]
    exact isUnder_head_ne "competencies" "skills" _ _ (by decide)
  have hsub : subtreeAt b myCompPath = subtreeAt target myCompPath := by
    rw [hb, subtreeAt_append, subtreeAt_prefixAll,
      subtreeAt_nil_of_keys _ _ hkeys, List.append_nil]
  have hnonempty : (subtreeAt b myCompPath).isEmpty = false := by
    apply isEmpty_false_of_lookup _ ["competency-manifest.json"] raw
    rw [hsub, fsLookup_subtreeAt]
    exact hm
  constructor
  · intro p
    unfold restore_my_competencies
    rw [fold_graft_other b _ _ (myCompPath ++ p) ?other]
    case other =>
      intro n _
      exact isUnder_head_ne "skills" "competencies" _ _ (by decide)
    rw [hnonempty]
    simp only [Bool.false_eq_true, if_false]
    rw [fsLookup_graft_under, hsub, fsLookup_subtreeAt]
  · intro sid hsid hdir p
    unfold restore_my_competencies
    rw [fold_graft_mem b _ _ sid p (Or.inl ?mem)]
    case mem =>
      rw [hb]
      exact mem_childDirNames_backup target ids sid hdir hsid
    rw [fsLookup_subtreeAt, hb, fsLookup_append]
    have hnone : fsLookup (prefixAll myCompPath (subtreeAt target myCompPath))
        (["skills", sid] ++ p) = none :=
      fsLookup_prefixAll_not _ _ _
        (isUnder_head_ne "competencies" "skills" _ _ (by decide))
    rw [hnone, Option.none_or]
    rw [fsLookup_flatten_blocks target _ sid p
      (hnd.filter _)
      (List.mem_filter.2 ⟨hsid, hdir⟩)]
    rw [skillTreeOf, fsLookup_prefixAll, fsLookup_subtreeAt]

/-- The C3 witness target: a kernel package with its manifest (declaring the
dependency skill `dep-skill`), a user note, and the dependency skill. -/
def roundtripTarget : FS :=
  [(["competencies", "my-competencies", "competency-manifest.json"], "mani"),
   (["competencies", "my-competencies", "notes.md"], "user-notes"),
   (["skills", "dep-skill", "SKILL.md"], "dep-v1")]

/-- The C3 witness parse function: the manifest text `mani` parses to
`{"bom": {"skills": ["dep-skill"]}}`. -/
def roundtripParse : String → Option JValue := fun s =>
  if s = "mani" then
    some (JValue.obj [("bom", JValue.obj [("skills", JValue.arr [JValue.str "dep-skill"])])])
  else none

/-- Witness for C3: a merge overwrites the kernel note, yet after restore
the note and the preserved dependency skill hold their original bytes. -/
theorem preserve_restore_roundtrip_witness :
    fsLookup
      (restore_my_competencies
        (applyMerges
          [([(["competencies", "my-competencies", "notes.md"], "overwritten")],
            ["docs", "tools"])]
          roundtripTarget)
        (some roundtripTarget))
      ["competencies", "my-competencies", "notes.md"] = some "user-notes"
    ∧ fsLookup
      (restore_my_competencies
        (applyMerges
          [([(["competencies", "my-competencies", "notes.md"], "overwritten")],
            ["docs", "tools"])]
          roundtripTarget)
        (some roundtripTarget))
      ["skills", "dep-skill", "SKILL.md"] = some "dep-v1" := by
  have h := preserve_restore_roundtrip roundtripParse roundtripTarget
    [([(["competencies", "my-competencies", "notes.md"], "overwritten")],
      ["docs", "tools"])]
    roundtripTarget ["dep-skill"] rfl
  exact ⟨h.1 ["notes.md"],
    h.2 "dep-skill" (List.mem_cons_self _ _) rfl ["SKILL.md"]⟩

theorem childDirNames_nil_of_keys (fs : FS) (pre : FPath)
    (h : ∀ e ∈ fs, isUnder pre e.1 = false) : childDirNames fs pre = [] := by
  unfold childDirNames
  have hfm : fs.filterMap (fun e =>
      if isUnder pre e.1 then
        match e.1.drop pre.length with
        | n :: _ :: _ => some n
        | _ => none
      else none) = [] := by
    induction fs with
    | nil => rfl
    | cons e rest ih =>
      rw [List.filterMap_cons, h e (List.mem_cons_self e rest)]
      simp only [Bool.false_eq_true, if_false]
      exact ih (fun e2 he2 => h e2 (List.mem_cons_of_mem _ he2))
  rw [hfm]
  rfl

/-- C10: when the kernel manifest file exists but its content does not
parse as JSON (even after NUL-byte sanitization), preserve does not fail:
it returns a bundle whose kernel subtree is byte-identical to the target's,
with the dependency set degraded to the empty set, and restoring that
bundle into any tree brings back the full kernel directory. -/
theorem preserve_unparsable_manifest (parse : String → Option JValue)
    (target : FS) (raw : String)
    (hm : fsLookup target manifestFilePath = some raw)
    (hp : parse (stripNuls raw) = none) :
    preserve_my_competencies parse target =
      some (some (prefixAll myCompPath (subtreeAt target myCompPath)), [])
    ∧ (∀ p, fsLookup (prefixAll myCompPath (subtreeAt target myCompPath))
        (myCompPath ++ p) = fsLookup target (myCompPath ++ p))
    ∧ (∀ t2 p, fsLookup
        (restore_my_competencies t2
          (some (prefixAll myCompPath (subtreeAt target myCompPath))))
        (myCompPath ++ p) = fsLookup target (myCompPath ++ p)) := by
  have hne : (subtreeAt target myCompPath).isEmpty = false := by
    apply isEmpty_false_of_lookup _ ["competency-manifest.json"] raw
    rw [fsLookup_subtreeAt]
    exact hm
  refine ⟨?_, ?_, ?_⟩
  · unfold preserve_my_competencies
    simp [hm, hp, extractBomSkills, lookupKV]
  · intro p
    rw [fsLookup_prefixAll, fsLookup_subtreeAt]
  · intro t2 p
    simp only [restore_my_competencies]
    rw [subtreeAt_prefixAll]
    have hcd : childDirNames (prefixAll myCompPath (subtreeAt target myCompPath))
        ["skills"] = [] := by
      apply childDirNames_nil_of_keys
      intro e he
      simp only [prefixAll, List.mem_map] at he
      obtain ⟨e0, _, he0⟩ := he
      have hkey : e.1 = myCompPath ++ e0.1 := by rw [← he0]
      rw [hkey]
      exact isUnder_head_ne "skills" "competencies" _ _ (by decide)
    rw [hcd, List.foldl_nil, hne]
    simp only [Bool.false_eq_true, if_false]
    rw [fsLookup_graft_under, fsLookup_subtreeAt]

/-- The C10 witness target: the kernel manifest contains broken JSON. -/
def brokenManifestTarget : FS :=
  [(["competencies", "my-competencies", "competency-manifest.json"], "broken"),
   (["competencies", "my-competencies", "notes.md"], "n")]

/-- Witness for C10: with a parse function that rejects everything,
preserve still returns the full kernel copy with no dependencies, and
restore recovers the kernel file even from a clobbered tree. -/
theorem preserve_unparsable_manifest_witness :
    preserve_my_competencies (fun _ => none) brokenManifestTarget =
      some (some (prefixAll myCompPath (subtreeAt brokenManifestTarget myCompPath)), [])
    ∧ fsLookup
      (restore_my_competencies
        [(["competencies", "my-competencies", "notes.md"], "clobbered")]
        (some (prefixAll myCompPath (subtreeAt brokenManifestTarget myCompPath))))
      ["competencies", "my-competencies", "notes.md"] = some "n" := by
  have h := preserve_unparsable_manifest (fun _ => none) brokenManifestTarget
    "broken" rfl rfl
  exact ⟨h.1,
    h.2.2 [(["competencies", "my-competencies", "notes.md"], "clobbered")] ["notes.md"]⟩
